import Mathlib

/-!
Verification of the CRF core of the BLSTM-CNNs-CRF repository
(`src/model.py`): the `log_sum_exp` and `argmax` helpers, the forward
(partition-function) algorithm `forward_alg`, the gold-path scorer
`score_sentences`, and the Viterbi decoder `viterbi_decode`.

Embedding conventions.

* A score tensor row of length `T` is a function `Fin T → α`; the emission
  matrix `feats` (shape `L × T`) is a `List (Fin T → α)` of its rows, in
  the order the Python code iterates over them (`for feat in feats`).
* The transition matrix is `trans : Fin T → Fin T → α`, with
  `trans i j` the score of transitioning FROM tag `j` TO tag `i`,
  exactly like `self.transitions[i][j]` in the source (the scorer indexes
  `transitions[pad_stop_tags, pad_start_tags]`, i.e. `[to, from]`).
* `T` is always written `n + 1` so that `argmax` is total, as `torch.max`
  is on nonempty tensors.
* Machine floats are modelled by exact arithmetic: a general linearly
  ordered field for the max-plus (Viterbi) and sum parts, `ℝ` where
  `torch.exp` / `torch.log` occur.
* The source accesses the tag count as `self.size_tag` in `forward_alg`
  and as `self.tagset_size` in `viterbi_decode`; the attribute defined in
  `__init__` is `self.n_tag`, and likewise `self.tag_to_ix` for
  `self.tag2idx`, `init_vvars.re` for `init_vvars`, and the
  `torch.FloatTensor(..., require_grad=True, device=...)` constructor
  call.  Following the specification (§9), these attribute-name slips are
  normalised away and the embedding keeps the algorithmic content: all
  of them denote the single tag-set size `n + 1`, the single tag-index
  map, and plain tensor copies.
* `torch.max(v, dim)` returns the value of the first maximal entry and
  its index; `argmax` below therefore takes the first index attaining
  the maximum, via `List.argmax`, which keeps the earliest of equals.
-/

/-- `argmax` from `model.py`: the index of the (first) maximal entry of a
nonempty score vector, as returned by `torch.max(vec, 1)`. -/
def argmax {n : ℕ} {α : Type} [LinearOrder α] (v : Fin (n + 1) → α) : Fin (n + 1) :=
  (((List.finRange (n + 1)).argmax v).getD 0)

/-- The initial score vector used by both `forward_alg` (`init_alphas`)
and `viterbi_decode` (`init_vvars`): every tag scores `-10000` except the
START tag, which scores `0`. -/
def vInit {n : ℕ} {α : Type} [LinearOrderedCommRing α] (start : Fin (n + 1)) :
    Fin (n + 1) → α :=
  fun i => if i = start then 0 else -10000

/-- `score_sentences` from `model.py`: the gold-path score.  The tag list
is padded with START in front (`pad_start_tags`) and STOP behind
(`pad_stop_tags`); the score is the sum of
`transitions[pad_stop_tags, pad_start_tags]` plus the sum of the emission
scores `feats[r, tags]`. -/
def score_sentences {n : ℕ} {α : Type} [LinearOrderedCommRing α]
    (trans : Fin (n + 1) → Fin (n + 1) → α) (start stop : Fin (n + 1))
    (feats : List (Fin (n + 1) → α)) (tags : List (Fin (n + 1))) : α :=
  (((tags ++ [stop]).zip (start :: tags)).map fun p => trans p.1 p.2).sum +
    ((feats.zip tags).map fun p => p.1 p.2).sum

/-- One step of the Viterbi loop in `viterbi_decode`:
`next_tag_var[i][j] = forward_var[j] + transitions[i][j]`, the
backpointer `bptrs_t[i]` is the (first) argmax over `j`, the Viterbi
variable is the corresponding maximal value, and the emission score
`feat[i]` is added afterwards.  Returns the new `forward_var` together
with this step's backpointer row. -/
def vStep {n : ℕ} {α : Type} [LinearOrderedCommRing α]
    (trans : Fin (n + 1) → Fin (n + 1) → α) (fv feat : Fin (n + 1) → α) :
    (Fin (n + 1) → α) × (Fin (n + 1) → Fin (n + 1)) :=
  let bp := fun i => argmax fun j => fv j + trans i j
  (fun i => (fv (bp i) + trans i (bp i)) + feat i, bp)

/-- The Viterbi loop `for feat in feats` of `viterbi_decode`: iterates
`vStep`, collecting the backpointer rows in order (`backpointers`). -/
def vRun {n : ℕ} {α : Type} [LinearOrderedCommRing α]
    (trans : Fin (n + 1) → Fin (n + 1) → α) (fv : Fin (n + 1) → α) :
    List (Fin (n + 1) → α) → (Fin (n + 1) → α) × List (Fin (n + 1) → Fin (n + 1))
  | [] => (fv, [])
  | feat :: rest =>
    let s := vStep trans fv feat
    let r := vRun trans s.1 rest
    (r.1, s.2 :: r.2)

/-- The traceback loop of `viterbi_decode`: starting from the best final
tag, repeatedly follow one backpointer row.  The argument list is the
reversed `backpointers` list, as in
`for bptrs_t in reversed(backpointers)`; the result is `best_path` (in
the reversed order it is built in, ending with the step-1 backpointer). -/
def backWalk {n : ℕ} :
    List (Fin (n + 1) → Fin (n + 1)) → Fin (n + 1) → List (Fin (n + 1))
  | [], b => [b]
  | bp :: rest, b => b :: backWalk rest (bp b)

/-- The terminal vector of `viterbi_decode`:
`terminal_var = forward_var + self.transitions[self.tag2idx[self.STOP_TAG]]`. -/
def vTerm {n : ℕ} {α : Type} [LinearOrderedCommRing α]
    (trans : Fin (n + 1) → Fin (n + 1) → α) (stop : Fin (n + 1))
    (fv : Fin (n + 1) → α) : Fin (n + 1) → α :=
  fun i => fv i + trans stop i

/-- The in-place exclusion writes of `viterbi_decode`:
`terminal_var.data[STOP] = -10000.` then
`terminal_var.data[START] = -10000.`. -/
def vTermMod {n : ℕ} {α : Type} [LinearOrderedCommRing α]
    (start stop : Fin (n + 1)) (tv : Fin (n + 1) → α) : Fin (n + 1) → α :=
  Function.update (Function.update tv stop (-10000)) start (-10000)

/-- `viterbi_decode` from `model.py`.  After the loop, the STOP
transition row is added, the START and STOP entries of `terminal_var` are
overwritten in place with `-10000.`, the best final tag is the argmax of
the modified vector and the path score is its entry there.  The
traceback walks the backpointers; the final element of `best_path` is
popped and asserted to be START (the assertion is modelled by returning
`none` when it fails), and the rest is reversed and returned. -/
def viterbi_decode {n : ℕ} {α : Type} [LinearOrderedCommRing α]
    (trans : Fin (n + 1) → Fin (n + 1) → α) (start stop : Fin (n + 1))
    (feats : List (Fin (n + 1) → α)) : Option (α × List (Fin (n + 1))) :=
  let r := vRun trans (vInit start) feats
  let term := vTermMod start stop (vTerm trans stop r.1)
  let best := argmax term
  let walk := backWalk r.2.reverse best
  if walk.getLastD best = start then some (term best, walk.dropLast.reverse)
  else none

/-- All valid tag sequences of a given length: every entry avoids the
START and STOP sentinels.  Used to state brute-force optimality of the
decoder. -/
def validSeqs {n : ℕ} (start stop : Fin (n + 1)) : ℕ → List (List (Fin (n + 1)))
  | 0 => [[]]
  | L + 1 =>
    (((List.finRange (n + 1)).filter fun t => t ≠ start ∧ t ≠ stop).map
      fun t => (validSeqs start stop L).map fun s => t :: s).flatten

/-- The score accumulated along a chain of (emission row, tag) steps
starting from a previous tag: each step contributes the transition score
into its tag plus the emission score of its tag.  This is the common
dynamic-programming skeleton of `score_sentences`, `forward_alg` and
`viterbi_decode`. -/
def chainScore {n : ℕ} {α : Type} [LinearOrderedCommRing α]
    (trans : Fin (n + 1) → Fin (n + 1) → α) :
    Fin (n + 1) → List ((Fin (n + 1) → α) × Fin (n + 1)) → α
  | _, [] => 0
  | prev, (f, t) :: rest => (trans t prev + f t) + chainScore trans t rest

/-- The last tag of a tag list, or the given previous tag if the list is
empty. -/
def lastTag {n : ℕ} (prev : Fin (n + 1)) (tags : List (Fin (n + 1))) : Fin (n + 1) :=
  tags.getLastD prev

/-- The maximal entry of a nonempty score vector, as the VALUE returned
by `torch.max(tag_var, dim=1)` in `forward_alg`. -/
noncomputable def fmax {n : ℕ} (v : Fin (n + 1) → ℝ) : ℝ :=
  Finset.univ.sup' Finset.univ_nonempty v

/-- `log_sum_exp` from `model.py`: `max_score` is the entry of the vector
at the index `argmax` returns; the result is
`max_score + log(sum(exp(vec - max_score)))` with the maximum broadcast
over the vector. -/
noncomputable def log_sum_exp {n : ℕ} (v : Fin (n + 1) → ℝ) : ℝ :=
  v (argmax v) + Real.log (∑ j, Real.exp (v j - v (argmax v)))

/-- The log-sum-exp computation inlined in the loop body of
`forward_alg` (lines 263–270): take the row maximum `max_tag_var` with
`torch.max(..., dim=1)`, subtract it, exponentiate, sum along the row,
take the log and add the maximum back. -/
noncomputable def stableRowLSE {n : ℕ} (v : Fin (n + 1) → ℝ) : ℝ :=
  fmax v + Real.log (∑ j, Real.exp (v j - fmax v))

/-- One iteration of the `for feat in feats` loop of `forward_alg`:
`tag_var[i][j] = forward_var[j] + transitions[i][j] + feat[i]` (the
emission score `feat.view(-1, 1)` broadcasts along the previous-tag
dimension), and the new `forward_var[i]` is the stable row-wise
log-sum-exp of row `i`. -/
noncomputable def fStep {n : ℕ} (trans : Fin (n + 1) → Fin (n + 1) → ℝ)
    (fv feat : Fin (n + 1) → ℝ) : Fin (n + 1) → ℝ :=
  fun i => stableRowLSE fun j => fv j + trans i j + feat i

/-- The loop of `forward_alg`, iterating `fStep` over the emission rows. -/
noncomputable def fRun {n : ℕ} (trans : Fin (n + 1) → Fin (n + 1) → ℝ)
    (fv : Fin (n + 1) → ℝ) : List (Fin (n + 1) → ℝ) → Fin (n + 1) → ℝ
  | [] => fv
  | feat :: rest => fRun trans (fStep trans fv feat) rest

/-- `forward_alg` from `model.py`: start from `init_alphas` (`-10000.`
everywhere, `0.` at START), iterate the loop over the emission rows, add
the transition-into-STOP row (`terminal_var`) and collapse with
`log_sum_exp` to the log partition function. -/
noncomputable def forward_alg {n : ℕ} (trans : Fin (n + 1) → Fin (n + 1) → ℝ)
    (start stop : Fin (n + 1)) (feats : List (Fin (n + 1) → ℝ)) : ℝ :=
  log_sum_exp fun i => fRun trans (vInit start) feats i + trans stop i

/-!
Shape/error model of `forward_alg`.  The Python function performs no
explicit validation; the only way it can fail on a well-typed transition
matrix (`T × T` with `T = n + 1 ≥ 2`) is the broadcast
`forward_var + self.transitions + emit_score` inside the loop, where
`emit_score = feat.view(-1, 1)` has shape `(len(feat), 1)`: adding it to
the `T × T` matrix raises a `RuntimeError` unless `len(feat)` is `T` or
`1` (PyTorch broadcasting).  Emission rows are therefore modelled as raw
lists, resolved against the tag dimension per iteration; `none` models
the raised error.
-/

/-- Resolve one raw emission row of `forward_alg` against the tag
dimension `n + 1`: a row of length `n + 1` is used entrywise, a row of
length `1` broadcasts its single entry, and any other length is a
PyTorch broadcasting error. -/
def resolveRow (n : ℕ) (row : List ℝ) : Option (Fin (n + 1) → ℝ) :=
  if h : row.length = n + 1 then some fun i => row.get (Fin.cast h.symm i)
  else if h1 : row.length = 1 then some fun _ => row.get (Fin.cast h1.symm 0)
  else none

/-- The loop of `forward_alg` on raw emission rows, propagating the
broadcasting error. -/
noncomputable def fRunE {n : ℕ} (trans : Fin (n + 1) → Fin (n + 1) → ℝ)
    (fv : Fin (n + 1) → ℝ) : List (List ℝ) → Option (Fin (n + 1) → ℝ)
  | [] => some fv
  | row :: rest =>
    match resolveRow n row with
    | none => none
    | some feat => fRunE trans (fStep trans fv feat) rest

/-- `forward_alg` on raw emission rows: as in the source, there is no
entry validation whatsoever; the loop either processes every row or
stops at the first broadcasting error, and the terminal reduction is
applied to whatever the loop produced. -/
noncomputable def forward_algE {n : ℕ} (trans : Fin (n + 1) → Fin (n + 1) → ℝ)
    (start stop : Fin (n + 1)) (feats : List (List ℝ)) : Option ℝ :=
  match fRunE trans (vInit start) feats with
  | none => none
  | some fv => some (log_sum_exp fun i => fv i + trans stop i)

/-!
Index model of `score_sentences`.  The gold tags arrive as raw integer
ids (a `LongTensor`); PyTorch advanced indexing `transitions[ids, ids]`
and `feats[r, tags]` accepts any id in `[-T, T)`, wrapping negative ids
to `id + T`, and raises an index-out-of-range error otherwise, before
producing any result.
-/

/-- PyTorch tensor-index resolution along a dimension of size `T`:
ids in `[0, T)` index directly, ids in `[-T, 0)` wrap to `id + T`, and
everything else is an index-out-of-range error. -/
def torchIndex (T : ℕ) (id : ℤ) : Option (Fin T) :=
  if h : 0 ≤ id ∧ id < T then
    some ⟨id.toNat, by omega⟩
  else if h2 : -(T : ℤ) ≤ id ∧ id < 0 then
    some ⟨(id + T).toNat, by omega⟩
  else none

/-- Resolve a whole list of raw gold-tag ids against the tag dimension,
failing on the first out-of-range id. -/
def resolveTags (T : ℕ) : List ℤ → Option (List (Fin T))
  | [] => some []
  | id :: rest =>
    match torchIndex T id with
    | none => none
    | some t =>
      match resolveTags T rest with
      | none => none
      | some ts => some (t :: ts)

/-- `score_sentences` on raw integer gold-tag ids: every id is resolved
with PyTorch index semantics (it occurs in `pad_start_tags`,
`pad_stop_tags` and the emission gather, always resolved against the tag
dimension); if any id is out of range the call raises before producing a
result, otherwise the score is computed as in `score_sentences`. -/
def score_sentencesZ {n : ℕ} {α : Type} [LinearOrderedCommRing α]
    (trans : Fin (n + 1) → Fin (n + 1) → α) (start stop : Fin (n + 1))
    (feats : List (Fin (n + 1) → α)) (tags : List ℤ) : Option α :=
  match resolveTags (n + 1) tags with
  | none => none
  | some ts => some (score_sentences trans start stop feats ts)

/-!
Storage model.  To settle what the three CRF operations mutate, tensors
are modelled as cells of a heap; a tensor reference is an index into the
heap.  Out-of-place torch operations (`+`, advanced indexing,
`torch.sum`, `torch.exp`, …) allocate a fresh cell; the in-place
operations of the source (`fill_`, item assignment, `.data[...] = ...`)
write to the cell they are applied to.  The transition matrix and the
emission matrix live in cells supplied by the caller; the claim under
test is that no call writes to those cells.
-/

/-- A stored tensor: a list of rows; 1-D tensors have a single row. -/
abbrev Tensor := List (List ℝ)

/-- The tensor heap. -/
abbrev Heap := List Tensor

/-- Allocate a fresh cell holding `t`; returns the heap and the new
reference. -/
def halloc (h : Heap) (t : Tensor) : Heap × ℕ := (h ++ [t], h.length)

/-- Read the tensor in cell `r`. -/
def hread (h : Heap) (r : ℕ) : Tensor := h.getD r []

/-- Overwrite cell `r` (an in-place tensor operation). -/
def hwrite (h : Heap) (r : ℕ) (t : Tensor) : Heap := h.set r t

/-- The (single) row of a 1-D stored tensor. -/
def row0 (t : Tensor) : List ℝ := t.getD 0 []

/-- In-place update of entry `j` of a 1-D stored tensor, as in
`v.data[j] = x` or `v[0][j] = x`. -/
def setEntry1 (t : Tensor) (j : ℕ) (x : ℝ) : Tensor :=
  t.set 0 ((t.getD 0 []).set j x)

/-- First maximal index of a list of scores (`torch.max` /
`numpy` argmax tie-breaking). -/
noncomputable def argmaxL (l : List ℝ) : ℕ :=
  (((List.range l.length).argmax fun k => l.getD k 0).getD 0)

/-- Maximal value of a list of scores. -/
noncomputable def maxL (l : List ℝ) : ℝ := l.getD (argmaxL l) 0

/-- One iteration of the Viterbi loop on the heap, mirroring the tensor
operations of the source line by line: `next_tag_var` is allocated by
`forward_var.expand + self.transitions`; the backpointers live outside
the tensor heap (`.data.cpu().numpy()`); `viterbivars_t` is allocated by
the `torch.FloatTensor` constructor; the new `forward_var` is allocated
by `viterbivars_t + feat`.  Returns the heap, the new `forward_var`
reference and this step's backpointers. -/
noncomputable def vStepH (T : ℕ) (rT : ℕ) (h : Heap) (rFv : ℕ)
    (featRow : List ℝ) : Heap × ℕ × List ℕ :=
  let trans := hread h rT
  let fv := row0 (hread h rFv)
  let nt : Tensor :=
    (List.range T).map fun i =>
      (List.range T).map fun j => fv.getD j 0 + (trans.getD i []).getD j 0
  let p1 := halloc h nt
  let bptrs := (List.range T).map fun i => argmaxL (nt.getD i [])
  let vv : Tensor :=
    [(List.range T).map fun i => (nt.getD i []).getD (bptrs.getD i 0) 0]
  let p2 := halloc p1.1 vv
  let fv2 : Tensor :=
    [(List.range T).map fun i => (row0 vv).getD i 0 + featRow.getD i 0]
  let p3 := halloc p2.1 fv2
  (p3.1, p3.2, bptrs)

/-- The Viterbi loop on the heap, collecting backpointers. -/
noncomputable def vLoopH (T : ℕ) (rT : ℕ) :
    Heap → ℕ → List (List ℝ) → Heap × ℕ × List (List ℕ)
  | h, rFv, [] => (h, rFv, [])
  | h, rFv, row :: rest =>
    let s := vStepH T rT h rFv row
    let r := vLoopH T rT s.1 s.2.1 rest
    (r.1, r.2.1, s.2.2 :: r.2.2)

/-- The traceback on raw backpointer rows. -/
def backWalkH : List (List ℕ) → ℕ → List ℕ
  | [], b => [b]
  | bp :: rest, b => b :: backWalkH rest (bp.getD b 0)

/-- The shared initialisation of `forward_alg` and `viterbi_decode` on
the heap: `torch.Tensor(1, T)` allocates a fresh cell, `.fill_(-10000.)`
overwrites it in place, and the START entry is then set to `0` in
place.  Returns the heap and the reference of the fresh tensor. -/
noncomputable def initFillH (T start : ℕ) (h : Heap) : Heap × ℕ :=
  let p0 := halloc h [List.replicate T 0]
  let h1 := hwrite p0.1 p0.2 [List.replicate T (-10000)]
  (hwrite h1 p0.2 (setEntry1 (hread h1 p0.2) start 0), p0.2)

/-- The terminal step of `viterbi_decode` on the heap: `terminal_var`
is allocated by `forward_var + self.transitions[STOP]` (the row read
aliases the transition matrix, but the addition allocates a fresh
tensor), and its STOP and START entries are overwritten in place
(`terminal_var.data[...] = -10000.`).  Returns the heap and the
reference of `terminal_var`. -/
noncomputable def vTermH (T start stop rT : ℕ) (H : Heap) (rFv : ℕ) :
    Heap × ℕ :=
  let fv := row0 (hread H rFv)
  let transStop := (hread H rT).getD stop []
  let term0 : Tensor :=
    [(List.range T).map fun i => fv.getD i 0 + transStop.getD i 0]
  let p4 := halloc H term0
  let h5 := hwrite p4.1 p4.2 (setEntry1 (hread p4.1 p4.2) stop (-10000))
  (hwrite h5 p4.2 (setEntry1 (hread h5 p4.2) start (-10000)), p4.2)

/-- `viterbi_decode` on the heap: initialise `init_vvars`, run the loop,
apply the terminal step; score and traceback are pure reads.  The final
assertion touches no tensor. -/
noncomputable def viterbi_decodeH (T start stop : ℕ) (h : Heap)
    (rT rF : ℕ) : (ℝ × List ℕ) × Heap :=
  let p0 := initFillH T start h
  let L := vLoopH T rT p0.1 p0.2 (hread p0.1 rF)
  let pt := vTermH T start stop rT L.1 L.2.1
  let termRow := row0 (hread pt.1 pt.2)
  let best := argmaxL termRow
  let walk := backWalkH L.2.2.reverse best
  ((termRow.getD best 0, walk.dropLast.reverse), pt.1)

/-- `score_sentences` on the heap: the two advanced-indexing gathers
allocate fresh tensors, the two `torch.sum` results and their sum are
fresh scalars; nothing is written in place. -/
noncomputable def score_sentencesH (start stop : ℕ) (h : Heap)
    (rT rF : ℕ) (tags : List ℕ) : ℝ × Heap :=
  let trans := hread h rT
  let feats := hread h rF
  let padStart := start :: tags
  let padStop := tags ++ [stop]
  let g1 : Tensor :=
    [(padStop.zip padStart).map fun p => (trans.getD p.1 []).getD p.2 0]
  let p1 := halloc h g1
  let g2 : Tensor :=
    [(List.range feats.length).map fun t =>
      (feats.getD t []).getD (tags.getD t 0) 0]
  let p2 := halloc p1.1 g2
  let s := (row0 g1).sum + (row0 g2).sum
  let p3 := halloc p2.1 [[s]]
  (s, p3.1)

/-- One iteration of the `forward_alg` loop on the heap: `tag_var`,
`max_tag_var`, the rebound shifted `tag_var` and the new `forward_var`
are each allocated by out-of-place operations. -/
noncomputable def fStepH (T : ℕ) (rT : ℕ) (h : Heap) (rFv : ℕ)
    (featRow : List ℝ) : Heap × ℕ :=
  let trans := hread h rT
  let fv := row0 (hread h rFv)
  let tagVar : Tensor :=
    (List.range T).map fun i =>
      (List.range T).map fun j =>
        fv.getD j 0 + (trans.getD i []).getD j 0 + featRow.getD i 0
  let p1 := halloc h tagVar
  let maxRow := (List.range T).map fun i => maxL (tagVar.getD i [])
  let p2 := halloc p1.1 [maxRow]
  let shifted : Tensor :=
    (List.range T).map fun i =>
      (List.range T).map fun j =>
        (tagVar.getD i []).getD j 0 - maxRow.getD i 0
  let p3 := halloc p2.1 shifted
  let newFv : Tensor :=
    [(List.range T).map fun i =>
      maxRow.getD i 0 + Real.log (((shifted.getD i []).map Real.exp).sum)]
  let p4 := halloc p3.1 newFv
  (p4.1, p4.2)

/-- The `forward_alg` loop on the heap. -/
noncomputable def fLoopH (T : ℕ) (rT : ℕ) :
    Heap → ℕ → List (List ℝ) → Heap × ℕ
  | h, rFv, [] => (h, rFv)
  | h, rFv, row :: rest =>
    let s := fStepH T rT h rFv row
    fLoopH T rT s.1 s.2 rest

/-- The `log_sum_exp` helper on a raw score list. -/
noncomputable def lseL (l : List ℝ) : ℝ :=
  maxL l + Real.log ((l.map fun x => Real.exp (x - maxL l)).sum)

/-- `forward_alg` on the heap: `init_alphas` is allocated fresh and
filled in place; `forward_var = init_alphas.clone()` allocates a copy;
the loop runs; `terminal_var` and the final scalar are fresh. -/
noncomputable def forward_algH (T start stop : ℕ) (h : Heap)
    (rT rF : ℕ) : ℝ × Heap :=
  let p0 := initFillH T start h
  let p1 := halloc p0.1 (hread p0.1 p0.2)
  let L := fLoopH T rT p1.1 p1.2 (hread p1.1 rF)
  let fv := row0 (hread L.1 L.2)
  let transStop := (hread L.1 rT).getD stop []
  let term : Tensor :=
    [(List.range T).map fun i => fv.getD i 0 + transStop.getD i 0]
  let p2 := halloc L.1 term
  let alpha := lseL (row0 (hread p2.1 p2.2))
  let p3 := halloc p2.1 [[alpha]]
  (alpha, p3.1)

/-! ### Log-sum-exp lemmas -/

/-- Shifting by any constant before exponentiating and adding it back
afterwards computes the plain log-sum-exp: the heart of the numerical
stabilisation used by `log_sum_exp` and by the loop of `forward_alg`. -/
theorem lse_shift {n : ℕ} (v : Fin (n + 1) → ℝ) (m : ℝ) :
    m + Real.log (∑ j, Real.exp (v j - m)) = Real.log (∑ j, Real.exp (v j)) := by
  have hpos : 0 < ∑ j, Real.exp (v j) :=
    Finset.sum_pos (fun j _ => Real.exp_pos _) Finset.univ_nonempty
  have hshift : ∑ j, Real.exp (v j - m) = (∑ j, Real.exp (v j)) * Real.exp (-m) := by
    rw [Finset.sum_mul]
    refine Finset.sum_congr rfl fun j _ => ?_
    rw [← Real.exp_add]
    ring_nf
  rw [hshift, Real.log_mul (ne_of_gt hpos) (ne_of_gt (Real.exp_pos _)), Real.log_exp]
  ring

/-- Each entry of a score vector is at most its log-sum-exp: a single
exponential is at most the whole sum, and `log` is monotone on positive
reals. -/
theorem le_log_sum_exp {n : ℕ} (v : Fin (n + 1) → ℝ) (i : Fin (n + 1)) :
    v i ≤ Real.log (∑ j, Real.exp (v j)) := by
  have h1 : Real.exp (v i) ≤ ∑ j, Real.exp (v j) :=
    Finset.single_le_sum (fun j _ => (Real.exp_pos (v j)).le) (Finset.mem_univ i)
  have h2 := Real.log_le_log (Real.exp_pos (v i)) h1
  rwa [Real.log_exp] at h2

/-- Claim C3: for every (finite) real score vector, `log_sum_exp`
returns exactly `log (sum (exp v))` under exact arithmetic; by
definition it computes this by subtracting the vector's maximum entry
(the entry at the index returned by `argmax`) before exponentiating and
adding it back afterwards. -/
theorem log_sum_exp_eq {n : ℕ} (v : Fin (n + 1) → ℝ) :
    log_sum_exp v = Real.log (∑ i, Real.exp (v i)) :=
  lse_shift v (v (argmax v))

/-- Claim C10: the numerically stable log-sum-exp inlined in the loop of
`forward_alg` (subtract the `torch.max` row maximum, exponentiate, sum,
log, add the maximum back) agrees with the `log_sum_exp` helper function
on every score row: under exact arithmetic both equal the plain
log-sum-exp, whichever shift is used. -/
theorem stableRowLSE_eq_log_sum_exp {n : ℕ} (v : Fin (n + 1) → ℝ) :
    stableRowLSE v = log_sum_exp v := by
  unfold stableRowLSE log_sum_exp
  rw [lse_shift v (fmax v), lse_shift v (v (argmax v))]

/-! ### The gold-path scorer -/

/-- The transition part of `score_sentences` — the sum over the zip of
the STOP-padded with the START-padded tag list — is the sum of the
transition scores of the consecutive pairs of the single padded
sequence `START :: tags ++ [STOP]`. -/
theorem zip_pad_eq_consec {n : ℕ} {α : Type} [LinearOrderedCommRing α]
    (trans : Fin (n + 1) → Fin (n + 1) → α) (stop : Fin (n + 1)) :
    ∀ (tags : List (Fin (n + 1))) (start : Fin (n + 1)),
      ((tags ++ [stop]).zip (start :: tags)).map (fun p => trans p.1 p.2) =
        ((start :: (tags ++ [stop])).zip (tags ++ [stop])).map fun p => trans p.2 p.1
  | [], start => rfl
  | t :: ts, start => by
    simpa [List.zip_cons_cons] using zip_pad_eq_consec trans stop ts t

/-- The emission part of `score_sentences` — the sum over the zip of the
emission rows with the tags — is the sum over positions `t` of
`E[t][tags[t]]`. -/
theorem zip_emit_eq_sum {n : ℕ} {α : Type} [LinearOrderedCommRing α] :
    ∀ (feats : List (Fin (n + 1) → α)) (tags : List (Fin (n + 1)))
      (h : tags.length = feats.length),
      ((feats.zip tags).map fun p => p.1 p.2).sum =
        ∑ i : Fin tags.length, feats.get (Fin.cast h i) (tags.get i)
  | [], [], _ => by simp
  | f :: fs, t :: ts, h => by
    have hh : ts.length = fs.length := by simpa using h
    show (List.map (fun p => p.1 p.2) ((f :: fs).zip (t :: ts))).sum =
      ∑ i : Fin (ts.length + 1), (f :: fs).get (Fin.cast h i) ((t :: ts).get i)
    rw [Fin.sum_univ_succ]
    simp only [List.zip_cons_cons, List.map_cons, List.sum_cons]
    rw [zip_emit_eq_sum fs ts hh]
    rfl

/-- Claim C4: `score_sentences` returns, as one scalar, the sum of the
transition scores of each of the `L + 1` consecutive pairs of the
START-prepended, STOP-appended padded sequence, plus the sum over the
`L` positions of the emission scores `E[t][tags[t]]`. -/
theorem score_sentences_spec {n : ℕ} {α : Type} [LinearOrderedCommRing α]
    (trans : Fin (n + 1) → Fin (n + 1) → α) (start stop : Fin (n + 1))
    (feats : List (Fin (n + 1) → α)) (tags : List (Fin (n + 1)))
    (h : tags.length = feats.length) :
    score_sentences trans start stop feats tags =
      (((start :: (tags ++ [stop])).zip (tags ++ [stop])).map
          fun p => trans p.2 p.1).sum +
        ∑ i : Fin tags.length, feats.get (Fin.cast h i) (tags.get i) ∧
      ((start :: (tags ++ [stop])).zip (tags ++ [stop])).length =
        tags.length + 1 := by
  constructor
  · unfold score_sentences
    rw [zip_pad_eq_consec trans stop tags start, zip_emit_eq_sum feats tags h]
  · simp

/-- Witness for C4 at a concrete input. -/
theorem score_sentences_spec_witness :
    score_sentences (fun i j : Fin 3 => (i : ℤ) * 10 + j) 0 2
        [fun j => (j : ℤ) + 7] [1] =
      ((((0 : Fin 3) :: ([1] ++ [2])).zip ([1] ++ [2])).map
          fun p => ((p.2 : ℤ) * 10 + p.1)).sum +
        ∑ i : Fin ([1] : List (Fin 3)).length,
          [fun j : Fin 3 => (j : ℤ) + 7].get (Fin.cast rfl i)
            (([1] : List (Fin 3)).get i) ∧
      ((((0 : Fin 3)) :: ([1] ++ [2])).zip ([1] ++ [2])).length =
        ([1] : List (Fin 3)).length + 1 :=
  score_sentences_spec (fun i j : Fin 3 => (i : ℤ) * 10 + j) 0 2
    [fun j => (j : ℤ) + 7] [1] rfl

/-! ### Error behaviour of the scorer and the forward algorithm -/

/-- `torchIndex` fails exactly on the ids outside `[-T, T)`. -/
theorem torchIndex_eq_none (T : ℕ) (id : ℤ) :
    torchIndex T id = none ↔ (T : ℤ) ≤ id ∨ id < -(T : ℤ) := by
  unfold torchIndex
  split_ifs with h1 h2
  · exact iff_of_false (by simp) (by omega)
  · exact iff_of_false (by simp) (by omega)
  · exact iff_of_true rfl (by omega)

/-- Resolving a gold-tag id list fails exactly when some id fails. -/
theorem resolveTags_eq_none (T : ℕ) :
    ∀ tags : List ℤ,
      resolveTags T tags = none ↔ ∃ id ∈ tags, torchIndex T id = none
  | [] => by simp [resolveTags]
  | id :: rest => by
    unfold resolveTags
    cases hid : torchIndex T id with
    | none => exact iff_of_true rfl ⟨id, List.mem_cons_self id rest, hid⟩
    | some t =>
      cases hr : resolveTags T rest with
      | none =>
        refine iff_of_true rfl ?_
        obtain ⟨i, hi, hn⟩ := (resolveTags_eq_none T rest).mp hr
        exact ⟨i, List.mem_cons_of_mem _ hi, hn⟩
      | some ts =>
        refine iff_of_false (by simp) ?_
        rintro ⟨i, hi, hn⟩
        rcases List.mem_cons.mp hi with rfl | hi'
        · rw [hid] at hn; exact Option.some_ne_none _ hn
        · have hcontra := (resolveTags_eq_none T rest).mpr ⟨i, hi', hn⟩
          rw [hr] at hcontra
          exact Option.some_ne_none _ hcontra

/-- Claim C6 (amended): `score_sentences` fails with an
index-out-of-range error, before producing any result, exactly when some
gold-tag id is `≥ T` or `< -T`; ids in `[-T, 0)` — in particular `-1` —
do not fail but are silently wrapped by PyTorch indexing to `id + T`. -/
theorem score_sentencesZ_none_iff {n : ℕ} {α : Type} [LinearOrderedCommRing α]
    (trans : Fin (n + 1) → Fin (n + 1) → α) (start stop : Fin (n + 1))
    (feats : List (Fin (n + 1) → α)) (tags : List ℤ) :
    score_sentencesZ trans start stop feats tags = none ↔
      ∃ id ∈ tags, ((n + 1 : ℕ) : ℤ) ≤ id ∨ id < -((n + 1 : ℕ) : ℤ) := by
  have hiff : (∃ id ∈ tags, torchIndex (n + 1) id = none) ↔
      ∃ id ∈ tags, ((n + 1 : ℕ) : ℤ) ≤ id ∨ id < -((n + 1 : ℕ) : ℤ) := by
    constructor
    · rintro ⟨i, hi, hn⟩; exact ⟨i, hi, (torchIndex_eq_none _ i).mp hn⟩
    · rintro ⟨i, hi, hn⟩; exact ⟨i, hi, (torchIndex_eq_none _ i).mpr hn⟩
  unfold score_sentencesZ
  cases hr : resolveTags (n + 1) tags with
  | none => exact iff_of_true rfl (hiff.mp ((resolveTags_eq_none _ tags).mp hr))
  | some ts =>
    refine iff_of_false (by simp) fun hx => ?_
    have hcontra := (resolveTags_eq_none _ tags).mpr (hiff.mpr hx)
    rw [hr] at hcontra
    exact Option.some_ne_none _ hcontra

/-- Counterexample to claim C6 as stated: the negative gold-tag id `-1`
(with `T = 3`) does not make `score_sentences` fail — PyTorch indexing
wraps it to `T - 1 = 2` and a score is returned. -/
theorem score_sentencesZ_neg_id_no_error :
    score_sentencesZ (fun _ _ : Fin 3 => (1 : ℤ)) 0 2 [fun _ => 1] [-1] =
      some 3 := by decide

/-- A resolved emission row fails exactly when its length is neither the
tag dimension nor `1`. -/
theorem resolveRow_eq_none (n : ℕ) (row : List ℝ) :
    resolveRow n row = none ↔ row.length ≠ n + 1 ∧ row.length ≠ 1 := by
  unfold resolveRow
  split_ifs with h1 h2
  · exact iff_of_false (by simp) (by tauto)
  · exact iff_of_false (by simp) (by tauto)
  · exact iff_of_true rfl ⟨h1, h2⟩

/-- The `forward_alg` loop fails exactly when some emission row has a
non-broadcastable length. -/
theorem fRunE_eq_none {n : ℕ} (trans : Fin (n + 1) → Fin (n + 1) → ℝ) :
    ∀ (feats : List (List ℝ)) (fv : Fin (n + 1) → ℝ),
      fRunE trans fv feats = none ↔
        ∃ row ∈ feats, row.length ≠ n + 1 ∧ row.length ≠ 1
  | [], fv => by simp [fRunE]
  | row :: rest, fv => by
    unfold fRunE
    cases hrow : resolveRow n row with
    | none =>
      exact iff_of_true rfl
        ⟨row, List.mem_cons_self row rest, (resolveRow_eq_none n row).mp hrow⟩
    | some feat =>
      have hIH := fRunE_eq_none trans rest (fStep trans fv feat)
      refine Iff.trans hIH ?_
      constructor
      · rintro ⟨r, hr, hbad⟩; exact ⟨r, List.mem_cons_of_mem _ hr, hbad⟩
      · rintro ⟨r, hr, hbad⟩
        rcases List.mem_cons.mp hr with rfl | hr'
        · exact absurd hrow (by rw [(resolveRow_eq_none n r).mpr hbad]; simp)
        · exact ⟨r, hr', hbad⟩

/-- Claim C5 (amended): `forward_alg` performs no entry validation.  A
zero-row emission matrix is not rejected: the loop is skipped and the
terminal log-sum-exp of the initial vector plus the STOP transitions is
returned.  An emission row whose length differs from the tag dimension
raises a broadcasting error when that row is processed — except a
length-1 row, which broadcasts silently — so the call fails exactly when
some row has a length other than `T` and other than `1`. -/
theorem forward_alg_no_entry_validation {n : ℕ}
    (trans : Fin (n + 1) → Fin (n + 1) → ℝ) (start stop : Fin (n + 1)) :
    forward_algE trans start stop [] =
        some (log_sum_exp fun i => vInit start i + trans stop i) ∧
      ∀ feats : List (List ℝ),
        (forward_algE trans start stop feats = none ↔
          ∃ row ∈ feats, row.length ≠ n + 1 ∧ row.length ≠ 1) := by
  constructor
  · rfl
  · intro feats
    unfold forward_algE
    cases hr : fRunE trans (vInit start) feats with
    | none => exact iff_of_true rfl ((fRunE_eq_none trans feats _).mp hr)
    | some fv =>
      refine iff_of_false (by simp) fun hx => ?_
      have hcontra := (fRunE_eq_none trans feats (vInit start)).mpr hx
      rw [hr] at hcontra
      exact Option.some_ne_none _ hcontra

/-- Counterexample to claim C5 as stated: a zero-length emission matrix
is not rejected at entry — `forward_alg` silently returns a value. -/
theorem forward_alg_empty_no_error :
    forward_algE (fun _ _ : Fin 2 => 0) 0 1 [] ≠ none := by
  simp [forward_algE, fRunE]

/-! ### Frame property: the CRF operations never write to their inputs -/

/-- Reading a cell below the original heap length through any extension
of the heap gives the original tensor. -/
theorem heap_pres {h H : Heap} (tail : Heap) (hH : H = h ++ tail) {r : ℕ}
    (hr : r < h.length) : H[r]? = h[r]? := by
  subst hH
  exact List.getElem?_append_left hr

/-- The first component of an allocation is the extended heap. -/
theorem halloc_fst (h : Heap) (t : Tensor) : (halloc h t).1 = h ++ [t] := rfl

/-- The second component of an allocation is the fresh reference. -/
theorem halloc_snd (h : Heap) (t : Tensor) : (halloc h t).2 = h.length := rfl

/-- One Viterbi step only allocates: the heap grows by a suffix. -/
theorem vStepH_heap (T rT : ℕ) (h : Heap) (rFv : ℕ) (row : List ℝ) :
    ∃ w, (vStepH T rT h rFv row).1 = h ++ w := by
  simp only [vStepH, halloc_fst, List.append_assoc]
  exact ⟨_, rfl⟩

/-- The Viterbi loop only allocates. -/
theorem vLoopH_heap (T rT : ℕ) :
    ∀ (rows : List (List ℝ)) (h : Heap) (rFv : ℕ),
      ∃ tail, (vLoopH T rT h rFv rows).1 = h ++ tail
  | [], h, rFv => ⟨[], by simp [vLoopH]⟩
  | row :: rest, h, rFv => by
    obtain ⟨w, hw⟩ := vStepH_heap T rT h rFv row
    obtain ⟨tail, htail⟩ :=
      vLoopH_heap T rT rest (vStepH T rT h rFv row).1 (vStepH T rT h rFv row).2.1
    refine ⟨w ++ tail, ?_⟩
    simp only [vLoopH]
    rw [htail, hw, List.append_assoc]

/-- One forward-algorithm step only allocates. -/
theorem fStepH_heap (T rT : ℕ) (h : Heap) (rFv : ℕ) (row : List ℝ) :
    ∃ w, (fStepH T rT h rFv row).1 = h ++ w := by
  simp only [fStepH, halloc_fst, List.append_assoc]
  exact ⟨_, rfl⟩

/-- The forward-algorithm loop only allocates. -/
theorem fLoopH_heap (T rT : ℕ) :
    ∀ (rows : List (List ℝ)) (h : Heap) (rFv : ℕ),
      ∃ tail, (fLoopH T rT h rFv rows).1 = h ++ tail
  | [], h, rFv => ⟨[], by simp [fLoopH]⟩
  | row :: rest, h, rFv => by
    obtain ⟨w, hw⟩ := fStepH_heap T rT h rFv row
    obtain ⟨tail, htail⟩ :=
      fLoopH_heap T rT rest (fStepH T rT h rFv row).1 (fStepH T rT h rFv row).2
    refine ⟨w ++ tail, ?_⟩
    simp only [fLoopH]
    rw [htail, hw, List.append_assoc]

/-- The initialisation writes only to the freshly allocated cell: the
original heap is preserved as a prefix. -/
theorem initFillH_heap (T start : ℕ) (h : Heap) :
    ∃ w, (initFillH T start h).1 = h ++ w := by
  simp only [initFillH, halloc_fst, halloc_snd, hwrite,
    List.set_append_right, le_refl, Nat.sub_self]
  exact ⟨_, rfl⟩

/-- The terminal step of the decoder writes only to the freshly
allocated `terminal_var` cell. -/
theorem vTermH_heap (T start stop rT : ℕ) (H : Heap) (rFv : ℕ) :
    ∃ w, (vTermH T start stop rT H rFv).1 = H ++ w := by
  simp only [vTermH, halloc_fst, halloc_snd, hwrite,
    List.set_append_right, le_refl, Nat.sub_self]
  exact ⟨_, rfl⟩

/-- `viterbi_decode` leaves the heap it was given untouched: its only
in-place writes (`init_vvars.fill_`, the START entry of `init_vvars`,
and the STOP/START entries of `terminal_var.data`) hit cells it
allocated itself, so the final heap is the initial heap plus fresh
cells. -/
theorem viterbi_decodeH_heap (T start stop : ℕ) (h : Heap) (rT rF : ℕ) :
    ∃ tail, (viterbi_decodeH T start stop h rT rF).2 = h ++ tail := by
  obtain ⟨w0, hw0⟩ := initFillH_heap T start h
  obtain ⟨w1, hw1⟩ := vLoopH_heap T rT (hread (initFillH T start h).1 rF)
    (initFillH T start h).1 (initFillH T start h).2
  obtain ⟨w2, hw2⟩ := vTermH_heap T start stop rT
    (vLoopH T rT (initFillH T start h).1 (initFillH T start h).2
      (hread (initFillH T start h).1 rF)).1
    (vLoopH T rT (initFillH T start h).1 (initFillH T start h).2
      (hread (initFillH T start h).1 rF)).2.1
  refine ⟨w0 ++ (w1 ++ w2), ?_⟩
  simp only [viterbi_decodeH]
  rw [hw2, hw1, hw0, List.append_assoc, List.append_assoc]

/-- `score_sentences` performs no in-place write at all: it only
allocates the two gather results and the final scalar. -/
theorem score_sentencesH_heap (start stop : ℕ) (h : Heap) (rT rF : ℕ)
    (tags : List ℕ) :
    ∃ tail, (score_sentencesH start stop h rT rF tags).2 = h ++ tail := by
  simp only [score_sentencesH, halloc_fst, List.append_assoc]
  exact ⟨_, rfl⟩

/-- `forward_alg` writes only to its freshly allocated `init_alphas`
cell; everything else it touches is a fresh allocation. -/
theorem forward_algH_heap (T start stop : ℕ) (h : Heap) (rT rF : ℕ) :
    ∃ tail, (forward_algH T start stop h rT rF).2 = h ++ tail := by
  obtain ⟨w0, hw0⟩ := initFillH_heap T start h
  obtain ⟨w1, hw1⟩ := fLoopH_heap T rT
    (hread (halloc (initFillH T start h).1
        (hread (initFillH T start h).1 (initFillH T start h).2)).1 rF)
    (halloc (initFillH T start h).1
        (hread (initFillH T start h).1 (initFillH T start h).2)).1
    (halloc (initFillH T start h).1
        (hread (initFillH T start h).1 (initFillH T start h).2)).2
  exact ⟨_, by
    simp only [forward_algH]
    rw [hw1]
    simp only [halloc_fst]
    rw [hw0]
    simp only [List.append_assoc]
    rfl⟩

/-- Claim C8: none of `forward_alg`, `score_sentences` or
`viterbi_decode` mutates the transition matrix or the emission matrix:
after any single call the heap cells holding the two inputs are
unchanged — the in-place writes inside `viterbi_decode` (and the
`fill_`-style initialisations) touch only freshly created tensors, never
`self.transitions` or `feats`. -/
theorem crf_no_input_mutation (T start stop : ℕ) (h : Heap) (rT rF : ℕ)
    (tags : List ℕ) (hT : rT < h.length) (hF : rF < h.length) :
    ((viterbi_decodeH T start stop h rT rF).2[rT]? = h[rT]? ∧
      (viterbi_decodeH T start stop h rT rF).2[rF]? = h[rF]?) ∧
    ((score_sentencesH start stop h rT rF tags).2[rT]? = h[rT]? ∧
      (score_sentencesH start stop h rT rF tags).2[rF]? = h[rF]?) ∧
    ((forward_algH T start stop h rT rF).2[rT]? = h[rT]? ∧
      (forward_algH T start stop h rT rF).2[rF]? = h[rF]?) := by
  obtain ⟨t1, h1⟩ := viterbi_decodeH_heap T start stop h rT rF
  obtain ⟨t2, h2⟩ := score_sentencesH_heap start stop h rT rF tags
  obtain ⟨t3, h3⟩ := forward_algH_heap T start stop h rT rF
  exact ⟨⟨heap_pres t1 h1 hT, heap_pres t1 h1 hF⟩,
    ⟨heap_pres t2 h2 hT, heap_pres t2 h2 hF⟩,
    ⟨heap_pres t3 h3 hT, heap_pres t3 h3 hF⟩⟩

/-- Witness for C8 on a concrete two-cell heap holding a `2 × 2`
transition matrix (cell 0) and a one-row emission matrix (cell 1). -/
theorem crf_no_input_mutation_witness :
    ((viterbi_decodeH 2 0 1 [[[1, 2], [3, 4]], [[5, 6]]] 0 1).2[0]? =
        ([[[1, 2], [3, 4]], [[5, 6]]] : Heap)[0]? ∧
      (viterbi_decodeH 2 0 1 [[[1, 2], [3, 4]], [[5, 6]]] 0 1).2[1]? =
        ([[[1, 2], [3, 4]], [[5, 6]]] : Heap)[1]?) ∧
    ((score_sentencesH 0 1 [[[1, 2], [3, 4]], [[5, 6]]] 0 1 [0]).2[0]? =
        ([[[1, 2], [3, 4]], [[5, 6]]] : Heap)[0]? ∧
      (score_sentencesH 0 1 [[[1, 2], [3, 4]], [[5, 6]]] 0 1 [0]).2[1]? =
        ([[[1, 2], [3, 4]], [[5, 6]]] : Heap)[1]?) ∧
    ((forward_algH 2 0 1 [[[1, 2], [3, 4]], [[5, 6]]] 0 1).2[0]? =
        ([[[1, 2], [3, 4]], [[5, 6]]] : Heap)[0]? ∧
      (forward_algH 2 0 1 [[[1, 2], [3, 4]], [[5, 6]]] 0 1).2[1]? =
        ([[[1, 2], [3, 4]], [[5, 6]]] : Heap)[1]?) :=
  crf_no_input_mutation 2 0 1 [[[1, 2], [3, 4]], [[5, 6]]] 0 1 [0]
    (by decide) (by decide)

/-! ### The partition function dominates every path score -/

/-- The last tag of a nonempty tag list ignores the previous tag. -/
theorem lastTag_cons {n : ℕ} (prev t : Fin (n + 1)) (ts : List (Fin (n + 1))) :
    lastTag prev (t :: ts) = lastTag t ts := by
  simp only [lastTag, List.getLastD_cons]

/-- `score_sentences` decomposed along the chain: the gold score is the
chain score of the zipped (emission row, tag) steps starting at START,
plus the final transition from the last tag into STOP. -/
theorem score_sentences_eq_chain {n : ℕ} {α : Type} [LinearOrderedCommRing α]
    (trans : Fin (n + 1) → Fin (n + 1) → α) (stop : Fin (n + 1)) :
    ∀ (tags : List (Fin (n + 1))) (feats : List (Fin (n + 1) → α))
      (start : Fin (n + 1)), tags.length = feats.length →
      score_sentences trans start stop feats tags =
        chainScore trans start (feats.zip tags) + trans stop (lastTag start tags)
  | [], [], start, _ => by
    simp [score_sentences, chainScore, lastTag]
  | t :: ts, f :: fs, start, h => by
    have hh : ts.length = fs.length := by simpa using h
    have IH := score_sentences_eq_chain trans stop ts fs t hh
    unfold score_sentences at IH ⊢
    simp only [List.zip] at IH ⊢
    simp only [List.cons_append, List.zipWith_cons_cons, List.map_cons,
      List.sum_cons, chainScore, lastTag_cons]
    linear_combination IH

/-- One forward step dominates any single predecessor choice: the
stable row log-sum-exp is at least the entry of the row at `prev`. -/
theorem fStep_ge {n : ℕ} (trans : Fin (n + 1) → Fin (n + 1) → ℝ)
    (fv feat : Fin (n + 1) → ℝ) (t prev : Fin (n + 1)) :
    fv prev + trans t prev + feat t ≤ fStep trans fv feat t := by
  have e : fStep trans fv feat t =
      Real.log (∑ j, Real.exp (fv j + trans t j + feat t)) := by
    unfold fStep stableRowLSE
    exact lse_shift _ _
  rw [e]
  exact le_log_sum_exp (fun j => fv j + trans t j + feat t) prev

/-- The forward loop dominates the chain score of every tag sequence:
after processing all emission rows, the forward variable at the
sequence's last tag is at least the starting score plus the chain
score. -/
theorem fRun_ge {n : ℕ} (trans : Fin (n + 1) → Fin (n + 1) → ℝ) :
    ∀ (feats : List (Fin (n + 1) → ℝ)) (tags : List (Fin (n + 1)))
      (fv : Fin (n + 1) → ℝ) (prev : Fin (n + 1)),
      tags.length = feats.length →
      fv prev + chainScore trans prev (feats.zip tags) ≤
        fRun trans fv feats (lastTag prev tags)
  | [], [], fv, prev, _ => by
    simp [fRun, chainScore, lastTag]
  | f :: fs, t :: ts, fv, prev, h => by
    have hh : ts.length = fs.length := by simpa using h
    have IH := fRun_ge trans fs ts (fStep trans fv f) t hh
    have hstep := fStep_ge trans fv f t prev
    have e1 : fRun trans fv (f :: fs) = fRun trans (fStep trans fv f) fs := rfl
    rw [e1, lastTag_cons]
    simp only [List.zip] at IH ⊢
    simp only [List.zip_cons_cons, chainScore]
    linarith

/-- Claim C2: for every transition matrix, emission matrix with at least
one row, and tag sequence of matching length, the log partition function
returned by `forward_alg` is at least the gold-path score returned by
`score_sentences`. -/
theorem forward_alg_ge_score_sentences {n : ℕ}
    (trans : Fin (n + 1) → Fin (n + 1) → ℝ) (start stop : Fin (n + 1))
    (feats : List (Fin (n + 1) → ℝ)) (tags : List (Fin (n + 1)))
    (hlen : tags.length = feats.length) (hL : 1 ≤ feats.length) :
    score_sentences trans start stop feats tags ≤
      forward_alg trans start stop feats := by
  rw [score_sentences_eq_chain trans stop tags feats start hlen]
  have h1 := fRun_ge trans feats tags (vInit start) start hlen
  have h2 : fRun trans (vInit start) feats (lastTag start tags) +
      trans stop (lastTag start tags) ≤ forward_alg trans start stop feats := by
    have e : forward_alg trans start stop feats =
        Real.log (∑ i, Real.exp
          (fRun trans (vInit start) feats i + trans stop i)) := by
      unfold forward_alg log_sum_exp
      exact lse_shift _ _
    rw [e]
    exact le_log_sum_exp
      (fun i => fRun trans (vInit start) feats i + trans stop i)
      (lastTag start tags)
  have hv : vInit start start = (0 : ℝ) := by simp [vInit]
  linarith

/-- Witness for C2 at a concrete input (`T = 2`, `L = 1`). -/
theorem forward_alg_ge_score_sentences_witness :
    score_sentences (fun _ _ : Fin 2 => (0 : ℝ)) 0 1 [fun _ => 0] [0] ≤
      forward_alg (fun _ _ : Fin 2 => 0) 0 1 [fun _ => 0] :=
  forward_alg_ge_score_sentences (fun _ _ : Fin 2 => 0) 0 1 [fun _ => 0] [0]
    rfl (by decide)

/-- Claim C9: the concrete scenario with tags `{START = 0, O = 1,
STOP = 2}`, transitions `A[O][START] = 5`, `A[STOP][O] = 5`, the fixed
`-10000` entries into START and out of STOP, all remaining entries `0`,
and emission scores `1` and `2` for tag O at the two positions:
`viterbi_decode` returns the path `[O, O]` with score `13`. -/
theorem viterbi_decode_concrete_scenario :
    viterbi_decode
      (fun i j : Fin 3 =>
        if i = 0 then (-10000 : ℤ) else if j = 2 then -10000 else
        if i = 1 ∧ j = 0 then 5 else if i = 2 ∧ j = 1 then 5 else 0)
      0 2
      [fun j => if j = 1 then 1 else 0, fun j => if j = 1 then 2 else 0] =
      some (13, [1, 1]) := by decide

/-! ### Viterbi decoder: structure of the loop and the traceback -/

/-- `argmax` returns an index attaining the maximum: every entry is at
most the entry at `argmax`. -/
theorem le_argmax {n : ℕ} {α : Type} [LinearOrder α] (v : Fin (n + 1) → α)
    (j : Fin (n + 1)) : v j ≤ v (argmax v) := by
  unfold argmax
  cases hm : (List.finRange (n + 1)).argmax v with
  | none =>
    have hnil := List.argmax_eq_none.mp hm
    have hlen := List.length_finRange (n + 1)
    rw [hnil] at hlen
    simp at hlen
  | some m =>
    simp only [Option.getD_some]
    exact List.le_of_mem_argmax (List.mem_finRange j) (Option.mem_def.mpr hm)

/-- The endpoint of the traceback walk: iterated application of the
backpointer rows. -/
def walkEnd {n : ℕ} :
    List (Fin (n + 1) → Fin (n + 1)) → Fin (n + 1) → Fin (n + 1)
  | [], b => b
  | bp :: rest, b => walkEnd rest (bp b)

/-- The traceback walk has one element per backpointer row plus the
starting tag. -/
theorem backWalk_length {n : ℕ} :
    ∀ (l : List (Fin (n + 1) → Fin (n + 1))) (b : Fin (n + 1)),
      (backWalk l b).length = l.length + 1
  | [], _ => rfl
  | bp :: rest, b => by
    simp [backWalk, backWalk_length rest (bp b)]

/-- The traceback walk starts at the chosen best tag. -/
theorem backWalk_eq_cons {n : ℕ} :
    ∀ (l : List (Fin (n + 1) → Fin (n + 1))) (b : Fin (n + 1)),
      ∃ t, backWalk l b = b :: t
  | [], b => ⟨[], rfl⟩
  | bp :: rest, b => ⟨backWalk rest (bp b), rfl⟩

/-- The last element of the traceback walk is the walk's endpoint. -/
theorem backWalk_getLastD {n : ℕ} :
    ∀ (l : List (Fin (n + 1) → Fin (n + 1))) (b d : Fin (n + 1)),
      (backWalk l b).getLastD d = walkEnd l b
  | [], b, d => by simp [backWalk, walkEnd, List.getLastD_cons]
  | bp :: rest, b, d => by
    simp only [backWalk, walkEnd, List.getLastD_cons]
    exact backWalk_getLastD rest (bp b) b

/-- The walk endpoint through an extended backpointer list. -/
theorem walkEnd_append_single {n : ℕ} :
    ∀ (l : List (Fin (n + 1) → Fin (n + 1))) (g : Fin (n + 1) → Fin (n + 1))
      (b : Fin (n + 1)), walkEnd (l ++ [g]) b = g (walkEnd l b)
  | [], g, b => rfl
  | bp :: rest, g, b => walkEnd_append_single rest g (bp b)

/-- The traceback walk through an extended backpointer list follows the
extra row from the previous endpoint. -/
theorem backWalk_append_single {n : ℕ} :
    ∀ (l : List (Fin (n + 1) → Fin (n + 1))) (g : Fin (n + 1) → Fin (n + 1))
      (b : Fin (n + 1)),
      backWalk (l ++ [g]) b = backWalk l b ++ [g (walkEnd l b)]
  | [], g, b => rfl
  | bp :: rest, g, b => by
    show b :: backWalk (rest ++ [g]) (bp b) =
      b :: (backWalk rest (bp b) ++ [g (walkEnd rest (bp b))])
    rw [backWalk_append_single rest g (bp b)]

/-- Reversing a nonempty list exposes its last element in front. -/
theorem reverse_eq_cons_of_ne_nil {β : Type} (w : List β) (d : β)
    (hne : w ≠ []) : w.reverse = w.getLastD d :: w.dropLast.reverse := by
  conv_lhs => rw [← List.dropLast_concat_getLast hne]
  rw [List.reverse_concat]
  congr 1
  rw [List.getLastD_eq_getLast?, List.getLast?_eq_getLast w hne]
  rfl

/-- The Viterbi loop records one backpointer row per emission row. -/
theorem vRun_snd_length {n : ℕ} {α : Type} [LinearOrderedCommRing α]
    (trans : Fin (n + 1) → Fin (n + 1) → α) :
    ∀ (feats : List (Fin (n + 1) → α)) (fv : Fin (n + 1) → α),
      ((vRun trans fv feats).2).length = feats.length
  | [], _ => rfl
  | f :: fs, fv => by
    have IH := vRun_snd_length trans fs (vStep trans fv f).1
    simp [vRun, IH]

/-- A Viterbi step dominates every single predecessor choice. -/
theorem vStep_fst_ge {n : ℕ} {α : Type} [LinearOrderedCommRing α]
    (trans : Fin (n + 1) → Fin (n + 1) → α) (fv feat : Fin (n + 1) → α)
    (i j : Fin (n + 1)) : fv j + trans i j + feat i ≤ (vStep trans fv feat).1 i := by
  simp only [vStep]
  linarith [le_argmax (fun j => fv j + trans i j) j]

/-- Reachability: the Viterbi loop dominates the chain score of every
tag sequence of matching length, read off at the sequence's last tag. -/
theorem vRun_ge {n : ℕ} {α : Type} [LinearOrderedCommRing α]
    (trans : Fin (n + 1) → Fin (n + 1) → α) :
    ∀ (feats : List (Fin (n + 1) → α)) (tags : List (Fin (n + 1)))
      (fv : Fin (n + 1) → α) (prev : Fin (n + 1)),
      tags.length = feats.length →
      fv prev + chainScore trans prev (feats.zip tags) ≤
        (vRun trans fv feats).1 (lastTag prev tags)
  | [], [], fv, prev, _ => by
    simp [vRun, chainScore, lastTag]
  | f :: fs, t :: ts, fv, prev, h => by
    have hh : ts.length = fs.length := by simpa using h
    have IH := vRun_ge trans fs ts (vStep trans fv f).1 t hh
    have hstep := vStep_fst_ge trans fv f t prev
    have e1 : (vRun trans fv (f :: fs)).1 = (vRun trans (vStep trans fv f).1 fs).1 := rfl
    rw [e1, lastTag_cons]
    simp only [List.zip] at IH ⊢
    simp only [List.zipWith_cons_cons, chainScore]
    linarith

/-- Attainment: the traceback walk from any final tag reconstructs a tag
sequence whose chain score is exactly the Viterbi value at that tag. -/
theorem vRun_traceback {n : ℕ} {α : Type} [LinearOrderedCommRing α]
    (trans : Fin (n + 1) → Fin (n + 1) → α) :
    ∀ (feats : List (Fin (n + 1) → α)) (fv : Fin (n + 1) → α) (b : Fin (n + 1)),
      (vRun trans fv feats).1 b =
        fv (walkEnd (vRun trans fv feats).2.reverse b) +
          chainScore trans (walkEnd (vRun trans fv feats).2.reverse b)
            (feats.zip ((backWalk (vRun trans fv feats).2.reverse b).dropLast.reverse))
  | [], fv, b => by
    simp [vRun, backWalk, walkEnd, chainScore]
  | f :: fs, fv, b => by
    have IH := vRun_traceback trans fs (vStep trans fv f).1 b
    have h1 : (vRun trans fv (f :: fs)).1 = (vRun trans (vStep trans fv f).1 fs).1 := rfl
    have h2 : (vRun trans fv (f :: fs)).2 =
      (vStep trans fv f).2 :: (vRun trans (vStep trans fv f).1 fs).2 := rfl
    rw [h1, h2, List.reverse_cons, walkEnd_append_single, backWalk_append_single,
      List.dropLast_concat]
    have hwne : backWalk (vRun trans (vStep trans fv f).1 fs).2.reverse b ≠ [] := by
      intro hc
      have := backWalk_length (vRun trans (vStep trans fv f).1 fs).2.reverse b
      rw [hc] at this
      simp at this
    rw [reverse_eq_cons_of_ne_nil _ b hwne, backWalk_getLastD]
    simp only [List.zip] at IH ⊢
    simp only [List.zipWith_cons_cons, chainScore]
    rw [IH]
    have hfv : (vStep trans fv f).1 (walkEnd (vRun trans (vStep trans fv f).1 fs).2.reverse b) =
        (fv ((vStep trans fv f).2 (walkEnd (vRun trans (vStep trans fv f).1 fs).2.reverse b)) +
          trans (walkEnd (vRun trans (vStep trans fv f).1 fs).2.reverse b)
            ((vStep trans fv f).2 (walkEnd (vRun trans (vStep trans fv f).1 fs).2.reverse b))) +
          f (walkEnd (vRun trans (vStep trans fv f).1 fs).2.reverse b) := rfl
    rw [hfv]
    ring

/-! ### Score bounds under bounded learned entries -/

/-- Generic upper bound: when the sentinel transitions are fixed at
`-10000` and every learned transition and emission entry has magnitude
at most `B`, any chain score of `k` steps is at most `2kB`. -/
theorem chainScore_le {n : ℕ} {α : Type} [LinearOrderedCommRing α]
    (trans : Fin (n + 1) → Fin (n + 1) → α) (start stop : Fin (n + 1)) (B : α)
    (hstart : ∀ j, trans start j = -10000) (hstop : ∀ i, trans i stop = -10000)
    (hA : ∀ i j, i ≠ start → j ≠ stop → |trans i j| ≤ B) (hB : 0 ≤ B) :
    ∀ (pairs : List ((Fin (n + 1) → α) × Fin (n + 1))) (prev : Fin (n + 1)),
      (∀ p ∈ pairs, ∀ i, |p.1 i| ≤ B) →
      chainScore trans prev pairs ≤ 2 * (pairs.length : α) * B
  | [], prev, _ => by simp [chainScore]
  | (f, t) :: rest, prev, hp => by
    have hrest := chainScore_le trans start stop B hstart hstop hA hB rest t
      fun p hmem i => hp p (List.mem_cons_of_mem _ hmem) i
    have hft : f t ≤ B := le_of_abs_le (hp (f, t) (List.mem_cons_self _ _) t)
    have htr : trans t prev ≤ B := by
      by_cases h1 : t = start
      · rw [h1, hstart]; linarith
      · by_cases h2 : prev = stop
        · rw [h2, hstop]; linarith
        · exact le_of_abs_le (hA t prev h1 h2)
    simp only [chainScore, List.length_cons]
    push_cast
    linarith

/-- A tag list "uses a forbidden transition" from a previous tag when it
leaves STOP, or enters START, at some step. -/
def hasForbidden {n : ℕ} (start stop : Fin (n + 1)) :
    Fin (n + 1) → List (Fin (n + 1)) → Prop
  | _, [] => False
  | prev, t :: rest => prev = stop ∨ t = start ∨ hasForbidden start stop t rest

/-- A chain that uses a forbidden transition pays the `-10000` penalty:
its score is at most `-10000 + 2kB`. -/
theorem chainScore_forbidden_le {n : ℕ} {α : Type} [LinearOrderedCommRing α]
    (trans : Fin (n + 1) → Fin (n + 1) → α) (start stop : Fin (n + 1)) (B : α)
    (hstart : ∀ j, trans start j = -10000) (hstop : ∀ i, trans i stop = -10000)
    (hA : ∀ i j, i ≠ start → j ≠ stop → |trans i j| ≤ B) (hB : 0 ≤ B) :
    ∀ (pairs : List ((Fin (n + 1) → α) × Fin (n + 1))) (prev : Fin (n + 1)),
      (∀ p ∈ pairs, ∀ i, |p.1 i| ≤ B) →
      hasForbidden start stop prev (pairs.map Prod.snd) →
      chainScore trans prev pairs ≤ -10000 + 2 * (pairs.length : α) * B
  | [], prev, _, hf => absurd hf (by simp [hasForbidden])
  | (f, t) :: rest, prev, hp, hf => by
    have hprest : ∀ p ∈ rest, ∀ i, |p.1 i| ≤ B :=
      fun p hmem i => hp p (List.mem_cons_of_mem _ hmem) i
    have hft : f t ≤ B := le_of_abs_le (hp (f, t) (List.mem_cons_self _ _) t)
    have hgen := chainScore_le trans start stop B hstart hstop hA hB rest t hprest
    simp only [List.map_cons, hasForbidden] at hf
    simp only [chainScore, List.length_cons]
    push_cast
    rcases hf with h1 | h2 | h3
    · rw [h1, hstop]
      linarith
    · subst h2
      rw [hstart]
      linarith
    · have hrec := chainScore_forbidden_le trans start stop B hstart hstop hA hB
        rest t hprest h3
      have htr : trans t prev ≤ B := by
        by_cases hc1 : t = start
        · rw [hc1, hstart]; linarith
        · by_cases hc2 : prev = stop
          · rw [hc2, hstop]; linarith
          · exact le_of_abs_le (hA t prev hc1 hc2)
      push_cast at hrec
      linarith

/-- Lower bound: the chain score of the constant sequence on a real tag
loses at most `2kB`. -/
theorem chainScore_replicate_ge {n : ℕ} {α : Type} [LinearOrderedCommRing α]
    (trans : Fin (n + 1) → Fin (n + 1) → α) (start stop : Fin (n + 1)) (B : α)
    (r : Fin (n + 1))
    (hA : ∀ i j, i ≠ start → j ≠ stop → |trans i j| ≤ B)
    (hr1 : r ≠ start) (hr2 : r ≠ stop) :
    ∀ (feats : List (Fin (n + 1) → α)) (prev : Fin (n + 1)), prev ≠ stop →
      (∀ f ∈ feats, ∀ i, |f i| ≤ B) →
      -(2 * (feats.length : α) * B) ≤
        chainScore trans prev (feats.zip (List.replicate feats.length r))
  | [], prev, _, _ => by simp [chainScore]
  | f :: fs, prev, hprev, hE => by
    have IH := chainScore_replicate_ge trans start stop B r hA hr1 hr2 fs r hr2
      fun f0 hmem i => hE f0 (List.mem_cons_of_mem _ hmem) i
    have htr : -B ≤ trans r prev := (abs_le.mp (hA r prev hr1 hprev)).1
    have hfr : -B ≤ f r := (abs_le.mp (hE f (List.mem_cons_self _ _) r)).1
    simp only [List.zip] at IH ⊢
    simp only [List.length_cons, List.replicate_succ, List.zipWith_cons_cons,
      chainScore]
    push_cast
    linarith

/-- The last tag of a constant nonempty sequence is its tag. -/
theorem lastTag_replicate {n : ℕ} (r : Fin (n + 1)) :
    ∀ (L : ℕ), 1 ≤ L → ∀ (prev : Fin (n + 1)),
      lastTag prev (List.replicate L r) = r
  | 0, h, _ => absurd h (by omega)
  | L + 1, _, prev => by
    rw [List.replicate_succ, lastTag_cons]
    cases L with
    | zero => simp [lastTag, List.getLastD_cons]
    | succ L2 => exact lastTag_replicate r (L2 + 1) (by omega) r

/-- The last tag of a nonempty list is one of its elements. -/
theorem lastTag_mem {n : ℕ} (prev t : Fin (n + 1)) (ts : List (Fin (n + 1))) :
    lastTag prev (t :: ts) ∈ t :: ts := by
  rw [lastTag_cons]
  exact List.getLastD_mem_cons ts t

/-- Appending one step to a chain adds the transition from the chain's
last tag plus the new emission. -/
theorem chainScore_append_single {n : ℕ} {α : Type} [LinearOrderedCommRing α]
    (trans : Fin (n + 1) → Fin (n + 1) → α) :
    ∀ (pairs : List ((Fin (n + 1) → α) × Fin (n + 1))) (prev : Fin (n + 1))
      (g : Fin (n + 1) → α) (t : Fin (n + 1)),
      chainScore trans prev (pairs ++ [(g, t)]) =
        chainScore trans prev pairs +
          (trans t (lastTag prev (pairs.map Prod.snd)) + g t)
  | [], prev, g, t => by simp [chainScore, lastTag]
  | (f, s) :: rest, prev, g, t => by
    show (trans s prev + f s) + chainScore trans s (rest ++ [(g, t)]) =
      (trans s prev + f s) + chainScore trans s rest +
        (trans t (lastTag prev (s :: rest.map Prod.snd)) + g t)
    rw [lastTag_cons, chainScore_append_single trans rest s g t]
    ring

/-- The tags of a zip of equal-length lists are the tag list. -/
theorem map_snd_zip_len {β γ : Type} :
    ∀ (l1 : List β) (l2 : List γ), l2.length = l1.length →
      (l1.zip l2).map Prod.snd = l2
  | [], [], _ => rfl
  | a :: l1, b :: l2, h => by
    simp only [List.zip_cons_cons, List.map_cons]
    rw [map_snd_zip_len l1 l2 (by simpa using h)]

/-- A forbidden step stays forbidden when the list is extended. -/
theorem hasForbidden_append {n : ℕ} (start stop : Fin (n + 1)) :
    ∀ (tags : List (Fin (n + 1))) (prev q : Fin (n + 1)),
      hasForbidden start stop prev tags →
      hasForbidden start stop prev (tags ++ [q])
  | [], prev, q, hf => absurd hf (by simp [hasForbidden])
  | t :: rest, prev, q, hf => by
    simp only [hasForbidden] at hf
    simp only [List.cons_append, hasForbidden]
    rcases hf with h1 | h2 | h3
    · exact Or.inl h1
    · exact Or.inr (Or.inl h2)
    · exact Or.inr (Or.inr (hasForbidden_append start stop rest t q h3))

/-- A sequence containing START enters START at some step. -/
theorem hasForbidden_of_mem_start {n : ℕ} (start stop : Fin (n + 1)) :
    ∀ (tags : List (Fin (n + 1))) (prev : Fin (n + 1)),
      start ∈ tags → hasForbidden start stop prev tags
  | [], prev, h => absurd h (by simp)
  | t :: rest, prev, h => by
    simp only [hasForbidden]
    rcases List.mem_cons.mp h with rfl | h'
    · exact Or.inr (Or.inl rfl)
    · exact Or.inr (Or.inr (hasForbidden_of_mem_start start stop rest t h'))

/-- A sequence containing STOP, extended by one more tag, leaves STOP at
some step. -/
theorem hasForbidden_of_mem_stop {n : ℕ} (start stop : Fin (n + 1)) :
    ∀ (tags : List (Fin (n + 1))) (prev q : Fin (n + 1)),
      stop ∈ tags → hasForbidden start stop prev (tags ++ [q])
  | [], prev, q, h => absurd h (by simp)
  | t :: rest, prev, q, h => by
    simp only [List.cons_append, hasForbidden]
    rcases List.mem_cons.mp h with rfl | h'
    · refine Or.inr (Or.inr ?_)
      cases rest with
      | nil => exact Or.inl rfl
      | cons a l => exact Or.inl rfl
    · exact Or.inr (Or.inr (hasForbidden_of_mem_stop start stop rest t q h'))

/-- Membership in the brute-force enumeration of valid sequences: the
sequences of the given length avoiding START and STOP. -/
theorem mem_validSeqs {n : ℕ} (start stop : Fin (n + 1)) :
    ∀ (L : ℕ) (seq : List (Fin (n + 1))),
      seq ∈ validSeqs start stop L ↔
        seq.length = L ∧ ∀ t ∈ seq, t ≠ start ∧ t ≠ stop
  | 0, seq => by
    constructor
    · intro h
      simp only [validSeqs, List.mem_singleton] at h
      subst h
      simp
    · rintro ⟨hlen, _⟩
      simp only [validSeqs, List.mem_singleton]
      exact List.length_eq_zero.mp hlen
  | L + 1, seq => by
    simp only [validSeqs, List.mem_flatten, List.mem_map]
    constructor
    · rintro ⟨l, ⟨t, ht, rfl⟩, hseq⟩
      rw [List.mem_filter] at ht
      obtain ⟨-, htprop⟩ := ht
      obtain ⟨s, hs, rfl⟩ := List.mem_map.mp hseq
      obtain ⟨hlen, hall⟩ := (mem_validSeqs start stop L s).mp hs
      have htp : t ≠ start ∧ t ≠ stop := by simpa using htprop
      refine ⟨by simp [hlen], ?_⟩
      intro x hx
      rcases List.mem_cons.mp hx with rfl | hx'
      · exact htp
      · exact hall x hx'
    · rintro ⟨hlen, hall⟩
      cases seq with
      | nil => simp at hlen
      | cons t s =>
        have hts := hall t (List.mem_cons_self t s)
        have hsv : s ∈ validSeqs start stop L :=
          (mem_validSeqs start stop L s).mpr
            ⟨by simpa using hlen, fun x hx => hall x (List.mem_cons_of_mem _ hx)⟩
        refine ⟨(validSeqs start stop L).map fun s0 => t :: s0,
          ⟨t, ?_, rfl⟩, ?_⟩
        · rw [List.mem_filter]
          exact ⟨List.mem_finRange t, by simpa using hts⟩
        · exact List.mem_map.mpr ⟨s, hsv, rfl⟩

/-- Core correctness of the decoder under bounded learned entries.  When
the sentinel transitions are fixed at `-10000`, every learned transition
and emission entry has magnitude at most `B`, some real tag exists,
`L ≥ 1`, and `(4L + 4)·B < 10000`, the decode succeeds (the traceback
assertion holds), the returned path has length `L`, avoids START and
STOP, and its score is the exact maximum of the gold-path scores over
all valid tag sequences. -/
theorem viterbi_decode_main {n : ℕ} {α : Type} [LinearOrderedCommRing α]
    (trans : Fin (n + 1) → Fin (n + 1) → α) (start stop : Fin (n + 1))
    (feats : List (Fin (n + 1) → α)) (B : α)
    (hss : start ≠ stop)
    (hstart : ∀ j, trans start j = -10000)
    (hstop : ∀ i, trans i stop = -10000)
    (hA : ∀ i j, i ≠ start → j ≠ stop → |trans i j| ≤ B)
    (hE : ∀ f ∈ feats, ∀ i, |f i| ≤ B)
    (hB : 0 ≤ B)
    (hreal : ∃ r, r ≠ start ∧ r ≠ stop)
    (hL : 1 ≤ feats.length)
    (hbound : (4 * (feats.length : α) + 4) * B < 10000) :
    ∃ s p, viterbi_decode trans start stop feats = some (s, p) ∧
      p.length = feats.length ∧ start ∉ p ∧ stop ∉ p ∧
      (∀ seq ∈ validSeqs start stop feats.length,
        score_sentences trans start stop feats seq ≤ s) ∧
      (∃ seq ∈ validSeqs start stop feats.length,
        score_sentences trans start stop feats seq = s) := by
  obtain ⟨r0, hr01, hr02⟩ := hreal
  set R := vRun trans (vInit start : Fin (n + 1) → α) feats with hR
  set TM := vTermMod start stop (vTerm trans stop R.1) with hTM
  set BST := argmax TM with hBST
  set WK := backWalk R.2.reverse BST with hWK
  set P := WK.dropLast.reverse with hP
  set ept := walkEnd R.2.reverse BST with hept
  have hunfold : viterbi_decode trans start stop feats =
      if WK.getLastD BST = start then some (TM BST, P) else none := rfl
  have hRlen : R.2.length = feats.length := by
    rw [hR]; exact vRun_snd_length trans feats (vInit start)
  have hWKlen : WK.length = feats.length + 1 := by
    rw [hWK, backWalk_length, List.length_reverse, hRlen]
  have hPlen : P.length = feats.length := by
    rw [hP, List.length_reverse, List.length_dropLast, hWKlen]
    simp
  have hTMstart : TM start = -10000 := by
    rw [hTM]
    unfold vTermMod
    rw [Function.update_same]
  have hTMstop : TM stop = -10000 := by
    rw [hTM]
    unfold vTermMod
    rw [Function.update_noteq (Ne.symm hss), Function.update_same]
  have hTMreal : ∀ i, i ≠ start → i ≠ stop → TM i = R.1 i + trans stop i := by
    intro i h1 h2
    rw [hTM]
    unfold vTermMod vTerm
    rw [Function.update_noteq h1, Function.update_noteq h2]
  have hv0 : vInit start start = (0 : α) := by simp [vInit]
  -- every valid sequence's gold score is at most the reported score
  have hupper : ∀ seq ∈ validSeqs start stop feats.length,
      score_sentences trans start stop feats seq ≤ TM BST := by
    intro seq hseq
    obtain ⟨hlen, hall⟩ := (mem_validSeqs start stop feats.length seq).mp hseq
    cases seq with
    | nil =>
      exfalso
      simp at hlen
      omega
    | cons t ts =>
      have hlastp := hall _ (lastTag_mem start t ts)
      have hreach := vRun_ge trans feats (t :: ts) (vInit start) start hlen
      rw [← hR] at hreach
      rw [score_sentences_eq_chain trans stop (t :: ts) feats start hlen]
      have heq : TM (lastTag start (t :: ts)) =
          R.1 (lastTag start (t :: ts)) + trans stop (lastTag start (t :: ts)) :=
        hTMreal _ hlastp.1 hlastp.2
      have hle := le_argmax TM (lastTag start (t :: ts))
      rw [← hBST] at hle
      rw [hv0] at hreach
      linarith
  -- the constant real-tag sequence is valid and bounded below
  have hrepl_mem : List.replicate feats.length r0 ∈
      validSeqs start stop feats.length := by
    rw [mem_validSeqs]
    refine ⟨List.length_replicate _ _, ?_⟩
    intro x hx
    rw [List.eq_of_mem_replicate hx]
    exact ⟨hr01, hr02⟩
  have hrepl_ge : -((2 * (feats.length : α) + 1) * B) ≤
      score_sentences trans start stop feats (List.replicate feats.length r0) := by
    rw [score_sentences_eq_chain trans stop _ feats start (by simp)]
    have hchain := chainScore_replicate_ge trans start stop B r0 hA hr01 hr02
      feats start hss hE
    rw [lastTag_replicate r0 feats.length hL start]
    have htr : -B ≤ trans stop r0 := (abs_le.mp (hA stop r0 (Ne.symm hss) hr02)).1
    linarith
  have hTMbest_ge : -((2 * (feats.length : α) + 1) * B) ≤ TM BST :=
    le_trans hrepl_ge (hupper _ hrepl_mem)
  have hLB_nn : (0 : α) ≤ (feats.length : α) * B :=
    mul_nonneg (Nat.cast_nonneg _) hB
  have h10000 : (-10000 : α) < -((2 * (feats.length : α) + 1) * B) := by
    nlinarith
  have hbest_ne_start : BST ≠ start := by
    intro hc
    rw [hc, hTMstart] at hTMbest_ge
    linarith
  have hbest_ne_stop : BST ≠ stop := by
    intro hc
    rw [hc, hTMstop] at hTMbest_ge
    linarith
  have hTMbest : TM BST = R.1 BST + trans stop BST :=
    hTMreal BST hbest_ne_start hbest_ne_stop
  -- traceback decomposition
  have htb := vRun_traceback trans feats (vInit start) BST
  rw [← hR, ← hept, ← hWK, ← hP] at htb
  -- the path ends at the best tag
  have hPlast : lastTag ept P = BST := by
    obtain ⟨tl, htl⟩ := backWalk_eq_cons R.2.reverse BST
    have hWKtl : WK = BST :: tl := by rw [hWK, htl]
    cases tl with
    | nil =>
      exfalso
      have h1 : WK.length = 1 := by rw [hWKtl]; rfl
      rw [hWKlen] at h1
      omega
    | cons x xs =>
      rw [hP, hWKtl, List.dropLast_cons₂, List.reverse_cons]
      simp [lastTag, List.getLastD_concat]
  -- bound for the zipped emission rows
  have hEmem : ∀ pr ∈ feats.zip P, ∀ i, |pr.1 i| ≤ B := by
    intro pr hpr i
    exact hE pr.1 (List.of_mem_zip hpr).1 i
  have hziplen : (feats.zip P).length = feats.length := by
    rw [List.length_zip, hPlen]
    simp
  -- the traceback terminates at START and the path avoids the sentinels
  have hmain : ept = start ∧ ∀ x ∈ P, x ≠ start ∧ x ≠ stop := by
    by_cases hEeq : ept = start
    · by_cases hclean : ∀ x ∈ P, x ≠ start ∧ x ≠ stop
      · exact ⟨hEeq, hclean⟩
      · exfalso
        push_neg at hclean
        obtain ⟨x, hxP, hximp⟩ := hclean
        have hxbad : x = start ∨ x = stop := by
          by_cases hxs : x = start
          · exact Or.inl hxs
          · exact Or.inr (hximp hxs)
        have hsnd : (feats.zip P).map Prod.snd = P := map_snd_zip_len feats P hPlen
        have hext := chainScore_append_single trans (feats.zip P) ept
          (fun _ => (0 : α)) stop
        rw [hsnd, hPlast] at hext
        have hforb : hasForbidden start stop ept
            ((feats.zip P ++ [(fun _ => (0 : α), stop)]).map Prod.snd) := by
          rw [List.map_append, hsnd]
          simp only [List.map_cons, List.map_nil]
          rcases hxbad with hx1 | hx2
          · exact hasForbidden_append start stop P ept stop
              (hasForbidden_of_mem_start start stop P ept (hx1 ▸ hxP))
          · exact hasForbidden_of_mem_stop start stop P ept stop (hx2 ▸ hxP)
        have hbnd : ∀ p ∈ feats.zip P ++ [(fun _ => (0 : α), stop)],
            ∀ i, |p.1 i| ≤ B := by
          intro p hp i
          rcases List.mem_append.mp hp with hp1 | hp2
          · exact hEmem p hp1 i
          · rw [List.mem_singleton] at hp2
            rw [hp2]
            simpa using hB
        have hfle := chainScore_forbidden_le trans start stop B hstart hstop hA hB
          (feats.zip P ++ [(fun _ => (0 : α), stop)]) ept hbnd hforb
        rw [List.length_append, hziplen] at hfle
        simp only [List.length_singleton] at hfle
        push_cast at hfle
        have h2 : TM BST = chainScore trans ept (feats.zip P) + trans stop BST := by
          rw [hTMbest, htb, hEeq, hv0]
          ring
        have h3 : TM BST =
            chainScore trans ept (feats.zip P ++ [(fun _ => (0 : α), stop)]) := by
          rw [h2, hext]
          ring
        rw [h3] at hTMbest_ge
        nlinarith [hTMbest_ge, hfle, hLB_nn, hbound, hB]
    · exfalso
      have hchain_le := chainScore_le trans start stop B hstart hstop hA hB
        (feats.zip P) ept hEmem
      rw [hziplen] at hchain_le
      have htrb : trans stop BST ≤ B :=
        le_of_abs_le (hA stop BST (Ne.symm hss) hbest_ne_stop)
      have hvinit : vInit start ept = (-10000 : α) := by simp [vInit, hEeq]
      have hbad : TM BST ≤ -10000 + (2 * (feats.length : α) + 2) * B := by
        rw [hTMbest, htb, hvinit]
        linarith
      nlinarith [hTMbest_ge, hbad, hLB_nn, hbound, hB]
  obtain ⟨hEstart, hPclean⟩ := hmain
  have hcond : WK.getLastD BST = start := by
    rw [hWK, backWalk_getLastD, ← hept]
    exact hEstart
  have hgoldP : score_sentences trans start stop feats P = TM BST := by
    rw [hEstart] at htb hPlast
    rw [score_sentences_eq_chain trans stop P feats start hPlen, hPlast,
      hTMbest, htb, hv0]
    ring
  have hPmem : P ∈ validSeqs start stop feats.length :=
    (mem_validSeqs start stop feats.length P).mpr ⟨hPlen, hPclean⟩
  refine ⟨TM BST, P, ?_, hPlen, ?_, ?_, hupper, ⟨P, hPmem, hgoldP⟩⟩
  · rw [hunfold, if_pos hcond]
  · intro hc
    exact (hPclean start hc).1 rfl
  · intro hc
    exact (hPclean stop hc).2 rfl

/-- Claim C1 (amended): when the §3 sentinel entries are fixed at
`-10000`, some real tag exists, `L ≥ 1`, and additionally every learned
transition entry and every emission score has magnitude at most `B` with
`(4L + 4)·B < 10000`, the score returned by `viterbi_decode` equals the
maximum over all valid tag sequences of length `L` of the gold-path
score computed by `score_sentences`.  (Without such a bound the finite
`-10000` sentinel penalty can be overcome; see the counterexample.) -/
theorem viterbi_decode_optimal {n : ℕ} {α : Type} [LinearOrderedCommRing α]
    (trans : Fin (n + 1) → Fin (n + 1) → α) (start stop : Fin (n + 1))
    (feats : List (Fin (n + 1) → α)) (B : α)
    (hss : start ≠ stop)
    (hstart : ∀ j, trans start j = -10000)
    (hstop : ∀ i, trans i stop = -10000)
    (hA : ∀ i j, i ≠ start → j ≠ stop → |trans i j| ≤ B)
    (hE : ∀ f ∈ feats, ∀ i, |f i| ≤ B)
    (hB : 0 ≤ B)
    (hreal : ∃ r, r ≠ start ∧ r ≠ stop)
    (hL : 1 ≤ feats.length)
    (hbound : (4 * (feats.length : α) + 4) * B < 10000) :
    ∃ s p, viterbi_decode trans start stop feats = some (s, p) ∧
      (∀ seq ∈ validSeqs start stop feats.length,
        score_sentences trans start stop feats seq ≤ s) ∧
      (∃ seq ∈ validSeqs start stop feats.length,
        score_sentences trans start stop feats seq = s) := by
  obtain ⟨s, p, h1, _, _, _, h5, h6⟩ :=
    viterbi_decode_main trans start stop feats B hss hstart hstop hA hE hB
      hreal hL hbound
  exact ⟨s, p, h1, h5, h6⟩

/-- Witness for (amended) C1: three tags, one emission row, all learned
entries zero, bound `B = 1`. -/
theorem viterbi_decode_optimal_witness :
    ∃ s p, viterbi_decode
        (fun i j : Fin 3 => if i = 0 then (-10000 : ℤ) else if j = 2 then -10000 else 0)
        0 2 [fun _ => 0] = some (s, p) ∧
      (∀ seq ∈ validSeqs (0 : Fin 3) 2 ([fun _ => (0 : ℤ)] :
          List (Fin 3 → ℤ)).length,
        score_sentences
          (fun i j : Fin 3 => if i = 0 then (-10000 : ℤ) else if j = 2 then -10000 else 0)
          0 2 [fun _ => 0] seq ≤ s) ∧
      (∃ seq ∈ validSeqs (0 : Fin 3) 2 ([fun _ => (0 : ℤ)] :
          List (Fin 3 → ℤ)).length,
        score_sentences
          (fun i j : Fin 3 => if i = 0 then (-10000 : ℤ) else if j = 2 then -10000 else 0)
          0 2 [fun _ => 0] seq = s) :=
  viterbi_decode_optimal
    (fun i j : Fin 3 => if i = 0 then (-10000 : ℤ) else if j = 2 then -10000 else 0)
    0 2 [fun _ => 0] 1 (by decide) (by decide) (by decide) (by decide)
    (by decide) (by decide) ⟨1, by decide⟩ (by decide) (by decide)

/-- Transition matrix for the counterexamples to C1 and C7 as stated:
the §3 invariants hold (the row into START and the column out of STOP
are fixed at `-10000`) and every learned entry is `0`. -/
def transCE : Fin 3 → Fin 3 → ℤ :=
  fun i j => if i = 0 then -10000 else if j = 2 then -10000 else 0

/-- Emission matrix for the counterexamples: a huge score (`30000`,
larger than the `10000` sentinel penalty) for emitting the STOP tag at
the first of two positions. -/
def featsCE : List (Fin 3 → ℤ) :=
  [fun j => if j = 2 then 30000 else 0, fun _ => 0]

/-- Counterexample to claim C1 as stated: with tags
`{START = 0, O = 1, STOP = 2}` and an emission score of `30000` for STOP
at position 0, the decoder returns score `20000` with path `[STOP, O]`,
while the only valid tag sequence `[O, O]` has gold score `0` — the
returned score is not the maximum over valid tag sequences. -/
theorem viterbi_decode_not_optimal :
    validSeqs (0 : Fin 3) 2 2 = [[1, 1]] ∧
    score_sentences transCE 0 2 featsCE [1, 1] = 0 ∧
    viterbi_decode transCE 0 2 featsCE = some (20000, [2, 1]) := by
  decide

/-- Claim C7 (amended): when the §3 sentinel entries are fixed at
`-10000`, some real tag exists, `L ≥ 1`, and additionally every learned
transition entry and every emission score has magnitude at most `B` with
`(4L + 4)·B < 10000`, `viterbi_decode` succeeds (the traceback
assertion that the walk terminates at START holds) and the returned tag
sequence has length exactly `L` and contains neither START nor STOP.
(Without such a bound the decoded path can pass through a sentinel; see
the counterexample.) -/
theorem viterbi_decode_path_valid {n : ℕ} {α : Type} [LinearOrderedCommRing α]
    (trans : Fin (n + 1) → Fin (n + 1) → α) (start stop : Fin (n + 1))
    (feats : List (Fin (n + 1) → α)) (B : α)
    (hss : start ≠ stop)
    (hstart : ∀ j, trans start j = -10000)
    (hstop : ∀ i, trans i stop = -10000)
    (hA : ∀ i j, i ≠ start → j ≠ stop → |trans i j| ≤ B)
    (hE : ∀ f ∈ feats, ∀ i, |f i| ≤ B)
    (hB : 0 ≤ B)
    (hreal : ∃ r, r ≠ start ∧ r ≠ stop)
    (hL : 1 ≤ feats.length)
    (hbound : (4 * (feats.length : α) + 4) * B < 10000) :
    ∃ s p, viterbi_decode trans start stop feats = some (s, p) ∧
      p.length = feats.length ∧ start ∉ p ∧ stop ∉ p := by
  obtain ⟨s, p, h1, h2, h3, h4, _, _⟩ :=
    viterbi_decode_main trans start stop feats B hss hstart hstop hA hE hB
      hreal hL hbound
  exact ⟨s, p, h1, h2, h3, h4⟩

/-- Witness for (amended) C7 at the same concrete input as the C1
witness. -/
theorem viterbi_decode_path_valid_witness :
    ∃ s p, viterbi_decode
        (fun i j : Fin 3 => if i = 0 then (-10000 : ℤ) else if j = 2 then -10000 else 0)
        0 2 [fun _ => 0] = some (s, p) ∧
      p.length = ([fun _ => (0 : ℤ)] : List (Fin 3 → ℤ)).length ∧
      (0 : Fin 3) ∉ p ∧ (2 : Fin 3) ∉ p :=
  viterbi_decode_path_valid
    (fun i j : Fin 3 => if i = 0 then (-10000 : ℤ) else if j = 2 then -10000 else 0)
    0 2 [fun _ => 0] 1 (by decide) (by decide) (by decide) (by decide)
    (by decide) (by decide) ⟨1, by decide⟩ (by decide) (by decide)

/-- Counterexample to claim C7 as stated: at the same unbounded input,
the decoded path `[STOP, O]` contains the STOP index. -/
theorem viterbi_decode_path_contains_stop :
    viterbi_decode transCE 0 2 featsCE = some (20000, [2, 1]) ∧
    (2 : Fin 3) ∈ ([2, 1] : List (Fin 3)) := by
  decide
